import Mathlib

/-!
Shallow embedding of `src/TwoAxisPolygonClip.c`, a two-pass (X then Y)
convex-polygon clipper against an axis-aligned rectangle.

Modelling conventions:
* C `int16_t` coordinates are modelled as unbounded `Int` (the claims under
  study concern the algorithm's arithmetic, not 16-bit wrap-around); C's
  truncating signed division `/` is `Int.tdiv`.
* The C routine walks edges starting from `sourcePolygon[0]` and visiting
  endpoints `sourcePolygon[nVertices-1], ..., sourcePolygon[0]` (the loop
  `while (nVertices--)`), i.e. the endpoint list is the reverse of the
  vertex list.  Each loop iteration is one `xEdge`/`yEdge` evaluation.
* The buffers are written at `pIndex = 0, 1, 2, ...` with `pIndex`
  incremented by exactly one at each store, so a pass's writes are exactly
  the emitted vertex list: the k-th element of the list is the value stored
  at buffer index k, and the final `pIndex` is the list's length.
* At label `lr_boundOut`/`tb_boundOut` the code unconditionally reloads
  `rx1 = ox1; ry1 = oy1`, where `ox1, oy1` were saved from the raw endpoint
  before any clipping; this is the recursive call on `p` in `xRun`/`yRun`.
-/

/-- Mirrors `struct vertex`: a 2-D point with integer coordinates. -/
structure vertex where
  x : Int
  y : Int
deriving DecidableEq

/-- Mirrors `struct clipRect`: the four bounds of the clip rectangle. -/
structure clipRect where
  clipLeft : Int
  clipRight : Int
  clipBottom : Int
  clipTop : Int
deriving DecidableEq

/-- Lines 100-103: in the right-to-left branch, if the start lies beyond the
right bound, replace it by the interpolated point on `x = R` (the update
`ry1 = ry1 + ((ry2 - ry1) * (clip_right - rx1)) / (rx2 - rx1); rx1 = clip_right`). -/
def xNearR (R : Int) (s p : vertex) : vertex :=
  if s.x > R then ⟨R, s.y + ((p.y - s.y) * (R - s.x)).tdiv (p.x - s.x)⟩ else s

/-- Lines 119-122: in the left-to-right branch, if the start lies beyond the
left bound, replace it by the interpolated point on `x = L`. -/
def xNearL (L : Int) (s p : vertex) : vertex :=
  if s.x < L then ⟨L, s.y + ((p.y - s.y) * (L - s.x)).tdiv (p.x - s.x)⟩ else s

/-- Lines 110-113: the extra vertex emitted on `x = L` when the (possibly
already right-clipped) edge exits past the left bound; `s1` is the current
`(rx1, ry1)` at that point. -/
def xFarL (L : Int) (s1 p : vertex) : vertex :=
  ⟨L, p.y + ((s1.y - p.y) * (L - p.x)).tdiv (s1.x - p.x)⟩

/-- Lines 127-130: the extra vertex emitted on `x = R` when the (possibly
already left-clipped) edge exits past the right bound. -/
def xFarR (R : Int) (s1 p : vertex) : vertex :=
  ⟨R, p.y + ((s1.y - p.y) * (R - p.x)).tdiv (s1.x - p.x)⟩

/-- Lines 94-131: the vertices stored for one X-pass edge from `s` to `p`
(in store order).  The outer `if` is the orientation test `rx1 > rx2`; the
inner rejection tests are lines 96 and 116; an empty result models the
`goto lr_boundOut` with nothing stored. -/
def xEdge (L R : Int) (s p : vertex) : List vertex :=
  if s.x > p.x then
    if s.x < L ∨ p.x > R then []
    else if p.x < L then [xNearR R s p, xFarL L (xNearR R s p) p]
    else [xNearR R s p]
  else
    if p.x < L ∨ s.x > R then []
    else if p.x > R then [xNearL L s p, xFarR R (xNearL L s p) p]
    else [xNearL L s p]

/-- Lines 161-164 (Y pass, decreasing-`y` branch): clip the start to the
bottom bound. -/
def yNearB (B : Int) (s p : vertex) : vertex :=
  if s.y > B then ⟨s.x + ((p.x - s.x) * (B - s.y)).tdiv (p.y - s.y), B⟩ else s

/-- Lines 177-180 (Y pass, increasing-`y` branch): clip the start to the top
bound. -/
def yNearT (T : Int) (s p : vertex) : vertex :=
  if s.y < T then ⟨s.x + ((p.x - s.x) * (T - s.y)).tdiv (p.y - s.y), T⟩ else s

/-- Lines 169-172: the extra vertex emitted on `y = T` when the edge exits
past the top bound. -/
def yFarT (T : Int) (s1 p : vertex) : vertex :=
  ⟨p.x + ((s1.x - p.x) * (T - p.y)).tdiv (s1.y - p.y), T⟩

/-- Lines 185-188: the extra vertex emitted on `y = B` when the edge exits
past the bottom bound. -/
def yFarB (B : Int) (s1 p : vertex) : vertex :=
  ⟨p.x + ((s1.x - p.x) * (B - p.y)).tdiv (s1.y - p.y), B⟩

/-- Lines 157-189: the vertices stored for one Y-pass edge from `s` to `p`. -/
def yEdge (T B : Int) (s p : vertex) : List vertex :=
  if s.y > p.y then
    if s.y < T ∨ p.y > B then []
    else if p.y < T then [yNearB B s p, yFarT T (yNearB B s p) p]
    else [yNearB B s p]
  else
    if p.y < T ∨ s.y > B then []
    else if p.y > B then [yNearT T s p, yFarB B (yNearT T s p) p]
    else [yNearT T s p]

/-- The X-pass loop (lines 87-136): process each endpoint in turn; after an
edge, the raw endpoint `p` becomes the next start (lines 133-135, reached
unconditionally). -/
def xRun (L R : Int) (s : vertex) : List vertex → List vertex
  | [] => []
  | p :: rest => xEdge L R s p ++ xRun L R p rest

/-- The Y-pass loop (lines 151-194). -/
def yRun (T B : Int) (s : vertex) : List vertex → List vertex
  | [] => []
  | p :: rest => yEdge T B s p ++ yRun T B p rest

/-- The whole X pass: start at `sourcePolygon[0]` (lines 83-84) and visit the
endpoints in reverse index order.  The result is the `clipBuffer` contents
(index k of the buffer holds element k of the list). -/
def xClipPass (L R : Int) (poly : List vertex) : List vertex :=
  match poly with
  | [] => []
  | v :: _ => xRun L R v poly.reverse

/-- The whole Y pass (lines 147-194), reading the X pass's buffer and writing
`clippedPolygon`. -/
def yClipPass (T B : Int) (w : List vertex) : List vertex :=
  match w with
  | [] => []
  | v :: _ => yRun T B v w.reverse

/-- Lines 31-197, the full routine.  Returns the final vertex count together
with the writes made to `clipBuffer` and to `clippedPolygon` (each list in
buffer-index order; an empty list means the buffer is never written).  The
early return at lines 141-142 happens before any `clippedPolygon` store. -/
def TwoAxisPolygonClip (poly : List vertex) (r : clipRect) : Nat × List vertex × List vertex :=
  let cb := xClipPass r.clipLeft r.clipRight poly
  if cb.length < 3 then (cb.length, cb, [])
  else
    let out := yClipPass r.clipTop r.clipBottom cb
    (out.length, cb, out)

/-- The X-pass loop instrumented with its per-iteration state: each entry
records the `(rx1, ry1)` start value used for that edge and the vertices the
edge stores.  Same recursion as `xRun`. -/
def xRunTrace (L R : Int) (s : vertex) : List vertex → List (vertex × List vertex)
  | [] => []
  | p :: rest => (s, xEdge L R s p) :: xRunTrace L R p rest

/-- Division-safety of one X-pass edge: every division the branch structure
of lines 94-131 actually executes has a non-zero divisor.  The guards mirror
the source's `if`s; the divisors are those of the four X-pass divisions. -/
def xEdgeSafe (L R : Int) (s p : vertex) : Prop :=
  if s.x > p.x then
    if s.x < L ∨ p.x > R then True
    else (s.x > R → p.x - s.x ≠ 0) ∧ (p.x < L → (xNearR R s p).x - p.x ≠ 0)
  else
    if p.x < L ∨ s.x > R then True
    else (s.x < L → p.x - s.x ≠ 0) ∧ (p.x > R → (xNearL L s p).x - p.x ≠ 0)

/-- Division-safety of one Y-pass edge (lines 157-189). -/
def yEdgeSafe (T B : Int) (s p : vertex) : Prop :=
  if s.y > p.y then
    if s.y < T ∨ p.y > B then True
    else (s.y > B → p.y - s.y ≠ 0) ∧ (p.y < T → (yNearB B s p).y - p.y ≠ 0)
  else
    if p.y < T ∨ s.y > B then True
    else (s.y < T → p.y - s.y ≠ 0) ∧ (p.y > B → (yNearT T s p).y - p.y ≠ 0)

/-- Division-safety of a whole X-pass loop. -/
def xRunSafe (L R : Int) (s : vertex) : List vertex → Prop
  | [] => True
  | p :: rest => xEdgeSafe L R s p ∧ xRunSafe L R p rest

/-- Division-safety of a whole Y-pass loop. -/
def yRunSafe (T B : Int) (s : vertex) : List vertex → Prop
  | [] => True
  | p :: rest => yEdgeSafe T B s p ∧ yRunSafe T B p rest

/-- Division-safety of the full routine on a given input: every division the
X pass executes, and (when the Y pass runs at all) every division the Y pass
executes on the X pass's output, has a non-zero divisor. -/
def TwoAxisSafe (poly : List vertex) (r : clipRect) : Prop :=
  (match poly with
   | [] => True
   | v :: _ => xRunSafe r.clipLeft r.clipRight v poly.reverse) ∧
  (3 ≤ (xClipPass r.clipLeft r.clipRight poly).length →
    match xClipPass r.clipLeft r.clipRight poly with
    | [] => True
    | v :: _ => yRunSafe r.clipTop r.clipBottom v (xClipPass r.clipLeft r.clipRight poly).reverse)

/-- Memory contents of a caller buffer after a run: buffer cell `i` holds the
`i`-th write if one was made, and its previous contents otherwise. -/
def overwrite (init : Nat → vertex) (ws : List vertex) (i : Nat) : vertex :=
  if h : i < ws.length then ws.get ⟨i, h⟩ else init i

/-- A concrete pre-existing buffer content, used to witness frame facts. -/
def initBuf : Nat → vertex :=
  fun _ => ⟨0, 0⟩

/-- Truncating division of a scaled delta stays between `0` and the delta:
for `0 < d` and `0 ≤ c ≤ d`, `(a * c).tdiv d` lies between `0` and `a`. -/
theorem tdiv_scale_between_pos (a c d : Int) (hd : 0 < d) (hc0 : 0 ≤ c) (hcd : c ≤ d) :
    min 0 a ≤ (a * c).tdiv d ∧ (a * c).tdiv d ≤ max 0 a := by
  rcases le_or_lt 0 a with ha | ha
  · have h0 : 0 ≤ (a * c).tdiv d := Int.tdiv_nonneg (mul_nonneg ha hc0) hd.le
    have h1 : (a * c).tdiv d ≤ a := by
      have hmul : a * c ≤ a * d := mul_le_mul_of_nonneg_left hcd ha
      have he : (a * c).tdiv d = (a * c) / d := Int.tdiv_eq_ediv (mul_nonneg ha hc0) hd.le
      have h2 : (a * c) / d ≤ (a * d) / d := Int.ediv_le_ediv hd hmul
      have h3 : (a * d) / d = a := Int.mul_ediv_cancel a hd.ne.symm
      omega
    omega
  · have hneg : (a * c).tdiv d = -(((-a) * c).tdiv d) := by
      rw [← Int.neg_tdiv, neg_mul, neg_neg]
    have ha2 : 0 ≤ -a := by omega
    have h0 : 0 ≤ ((-a) * c).tdiv d := Int.tdiv_nonneg (mul_nonneg ha2 hc0) hd.le
    have h1 : ((-a) * c).tdiv d ≤ -a := by
      have hmul : (-a) * c ≤ (-a) * d := mul_le_mul_of_nonneg_left hcd ha2
      have he : ((-a) * c).tdiv d = ((-a) * c) / d := Int.tdiv_eq_ediv (mul_nonneg ha2 hc0) hd.le
      have h2 : ((-a) * c) / d ≤ ((-a) * d) / d := Int.ediv_le_ediv hd hmul
      have h3 : ((-a) * d) / d = -a := Int.mul_ediv_cancel (-a) hd.ne.symm
      omega
    omega

/-- Mirror of `tdiv_scale_between_pos` for a negative divisor with
`d ≤ c ≤ 0`. -/
theorem tdiv_scale_between_neg (a c d : Int) (hd : d < 0) (hc0 : c ≤ 0) (hcd : d ≤ c) :
    min 0 a ≤ (a * c).tdiv d ∧ (a * c).tdiv d ≤ max 0 a := by
  have h : (a * c).tdiv d = (a * (-c)).tdiv (-d) := by
    rw [mul_neg, Int.neg_tdiv, Int.tdiv_neg, neg_neg]
  rw [h]
  exact tdiv_scale_between_pos a (-c) (-d) (by omega) (by omega) (by omega)

/-- The interpolated value `base + ((other - base) * c).tdiv d` lies between
`base` and `other`, for either divisor orientation. -/
theorem interp_between (base other c d : Int)
    (h : (0 < d ∧ 0 ≤ c ∧ c ≤ d) ∨ (d < 0 ∧ c ≤ 0 ∧ d ≤ c)) :
    min base other ≤ base + ((other - base) * c).tdiv d ∧
      base + ((other - base) * c).tdiv d ≤ max base other := by
  rcases h with ⟨hd, hc0, hcd⟩ | ⟨hd, hc0, hcd⟩
  · have := tdiv_scale_between_pos (other - base) c d hd hc0 hcd
    omega
  · have := tdiv_scale_between_neg (other - base) c d hd hc0 hcd
    omega

/-- C1: the square (0,0),(10,0),(10,10),(0,10) clipped against
left=5, right=15, top=-5, bottom=15 yields 4 vertices, namely the rectangle
(5,0),(10,0),(10,10),(5,10) as a closed polygon in traversal order: the
output buffer holds exactly that vertex cycle, rotated to start at (5,10). -/
theorem square_clip_concrete :
    TwoAxisPolygonClip [⟨0, 0⟩, ⟨10, 0⟩, ⟨10, 10⟩, ⟨0, 10⟩] ⟨5, 15, 15, -5⟩ =
      (4, [⟨5, 10⟩, ⟨10, 10⟩, ⟨10, 0⟩, ⟨5, 0⟩],
          [⟨5, 10⟩, ⟨5, 0⟩, ⟨10, 0⟩, ⟨10, 10⟩]) ∧
    ([⟨5, 10⟩, ⟨5, 0⟩, ⟨10, 0⟩, ⟨10, 10⟩] : List vertex) =
      List.rotate [⟨5, 0⟩, ⟨10, 0⟩, ⟨10, 10⟩, ⟨5, 10⟩] 3 := by
  constructor
  · decide
  · decide

/-- C6 (failing evaluation): the convex triangle (4,15),(11,2),(-9,-6)
clipped against left=0, right=10, top=0, bottom=10 makes 7 writes to
`clippedPolygon` (indices 0..6) and returns 7, although
`2 × nVertices = 6`; the write at index 6 and the returned count exceed the
documented `2 × nVertices` capacity.  The triangle is strictly convex: its
three vertices are not collinear. -/
theorem output_buffer_overrun_concrete :
    TwoAxisPolygonClip [⟨4, 15⟩, ⟨11, 2⟩, ⟨-9, -6⟩] ⟨0, 10, 10, 0⟩ =
      (7, [⟨4, 15⟩, ⟨0, 8⟩, ⟨0, -3⟩, ⟨10, 2⟩, ⟨10, 3⟩],
          [⟨6, 10⟩, ⟨10, 3⟩, ⟨10, 2⟩, ⟨6, 0⟩, ⟨0, 0⟩, ⟨0, 8⟩, ⟨2, 10⟩]) ∧
    2 * ([⟨4, 15⟩, ⟨11, 2⟩, ⟨-9, -6⟩] : List vertex).length <
      (TwoAxisPolygonClip [⟨4, 15⟩, ⟨11, 2⟩, ⟨-9, -6⟩] ⟨0, 10, 10, 0⟩).1 ∧
    ((11 : Int) - 4) * (-6 - 2) - (2 - 15) * (-9 - 11) ≠ 0 := by
  refine ⟨by decide, by decide, by decide⟩

/-- C10 (failing evaluation): clipping the convex triangle (0,0),(10,0),(5,5)
against left=5, right=20, top=-10, bottom=20 returns 4 vertices whose first
and last entries are both (5,5): two cyclically consecutive output vertices
are identical, a zero-length edge in the clipped polygon. -/
theorem duplicate_output_vertices_concrete :
    TwoAxisPolygonClip [⟨0, 0⟩, ⟨10, 0⟩, ⟨5, 5⟩] ⟨5, 20, 20, -10⟩ =
      (4, [⟨5, 5⟩, ⟨5, 5⟩, ⟨10, 0⟩, ⟨5, 0⟩],
          [⟨5, 5⟩, ⟨5, 0⟩, ⟨10, 0⟩, ⟨5, 5⟩]) ∧
    (TwoAxisPolygonClip [⟨0, 0⟩, ⟨10, 0⟩, ⟨5, 5⟩] ⟨5, 20, 20, -10⟩).2.2.head? =
      (TwoAxisPolygonClip [⟨0, 0⟩, ⟨10, 0⟩, ⟨5, 5⟩] ⟨5, 20, 20, -10⟩).2.2.getLast? ∧
    3 ≤ (TwoAxisPolygonClip [⟨0, 0⟩, ⟨10, 0⟩, ⟨5, 5⟩] ⟨5, 20, 20, -10⟩).1 := by
  refine ⟨by decide, by decide, by decide⟩

/-- C4 (counterexample): an edge that crosses BOTH X bounds does not produce
direction-independent boundary vertices.  For the edge between A = (11,-20)
and B = (-30,-16) with left=0, right=10, traversing A→B emits the left-bound
vertex (0,-19), while traversing B→A emits (0,-18) at the same bound: the
interpolated boundary vertex differs between the two traversal directions. -/
theorem boundary_vertex_direction_dependent :
    xEdge 0 10 ⟨11, -20⟩ ⟨-30, -16⟩ = [⟨10, -20⟩, ⟨0, -19⟩] ∧
    xEdge 0 10 ⟨-30, -16⟩ ⟨11, -20⟩ = [⟨0, -18⟩, ⟨10, -20⟩] ∧
    (⟨0, -19⟩ : vertex) ≠ ⟨0, -18⟩ := by
  refine ⟨by decide, by decide, by decide⟩

/-- C9 (counterexample): the X pass on the polygon (0,0),(20,9),(20,4) with
left=0, right=10 processes the edge from (0,0) to (20,4) without the cheap
rejection (it stores (0,0) and the boundary vertex (10,2)); yet the next
edge's starting point is the original unclipped endpoint (20,4), whose
x-coordinate 20 exceeds right=10, not the clipped endpoint (10,2): the code
carries the unclipped endpoint forward even for non-rejected edges. -/
theorem advance_uses_unclipped_endpoint :
    xRunTrace 0 10 ⟨0, 0⟩ ([⟨0, 0⟩, ⟨20, 9⟩, ⟨20, 4⟩] : List vertex).reverse =
      [(⟨0, 0⟩, [⟨0, 0⟩, ⟨10, 2⟩]),
       (⟨20, 4⟩, []),
       (⟨20, 9⟩, [⟨10, 5⟩])] ∧
    (⟨20, 4⟩ : vertex) ≠ ⟨10, 2⟩ ∧ (10 : Int) < 20 := by
  refine ⟨by decide, by decide, by decide⟩

/-- The x-coordinate stored for the (possibly right-clipped) start. -/
theorem xNearR_x (R : Int) (s p : vertex) :
    (xNearR R s p).x = if s.x > R then R else s.x := by
  unfold xNearR
  split_ifs <;> rfl

/-- The x-coordinate stored for the (possibly left-clipped) start. -/
theorem xNearL_x (L : Int) (s p : vertex) :
    (xNearL L s p).x = if s.x < L then L else s.x := by
  unfold xNearL
  split_ifs <;> rfl

/-- The y-coordinate stored for the (possibly bottom-clipped) start. -/
theorem yNearB_y (B : Int) (s p : vertex) :
    (yNearB B s p).y = if s.y > B then B else s.y := by
  unfold yNearB
  split_ifs <;> rfl

/-- The y-coordinate stored for the (possibly top-clipped) start. -/
theorem yNearT_y (T : Int) (s p : vertex) :
    (yNearT T s p).y = if s.y < T then T else s.y := by
  unfold yNearT
  split_ifs <;> rfl

/-- Every division the X pass can execute on any edge has a non-zero
divisor, provided the clip rectangle satisfies `left ≤ right`. -/
theorem xEdgeSafe_holds (L R : Int) (hLR : L ≤ R) (s p : vertex) :
    xEdgeSafe L R s p := by
  unfold xEdgeSafe
  rw [xNearR_x, xNearL_x]
  split_ifs <;> first | trivial | omega

/-- Every division the Y pass can execute on any edge has a non-zero
divisor, provided the clip rectangle satisfies `top ≤ bottom`. -/
theorem yEdgeSafe_holds (T B : Int) (hTB : T ≤ B) (s p : vertex) :
    yEdgeSafe T B s p := by
  unfold yEdgeSafe
  rw [yNearB_y, yNearT_y]
  split_ifs <;> first | trivial | omega

/-- Division-safety of the whole X-pass loop, from any start. -/
theorem xRunSafe_holds (L R : Int) (hLR : L ≤ R) (s : vertex)
    (eps : List vertex) : xRunSafe L R s eps := by
  induction eps generalizing s with
  | nil => trivial
  | cons p rest ih => exact ⟨xEdgeSafe_holds L R hLR s p, ih p⟩

/-- Division-safety of the whole Y-pass loop, from any start. -/
theorem yRunSafe_holds (T B : Int) (hTB : T ≤ B) (s : vertex)
    (eps : List vertex) : yRunSafe T B s eps := by
  induction eps generalizing s with
  | nil => trivial
  | cons p rest ih => exact ⟨yEdgeSafe_holds T B hTB s p, ih p⟩

/-- C5: for every input polygon (degenerate zero-length edges included), as
long as the clip rectangle satisfies its documented invariant
`left ≤ right` and `top ≤ bottom`, every linear-interpolation division the
routine executes — in both passes — has a non-zero divisor. -/
theorem no_division_by_zero (poly : List vertex) (r : clipRect)
    (hLR : r.clipLeft ≤ r.clipRight) (hTB : r.clipTop ≤ r.clipBottom) :
    TwoAxisSafe poly r := by
  constructor
  · cases poly with
    | nil => trivial
    | cons v t => exact xRunSafe_holds _ _ hLR v _
  · intro _
    cases h : xClipPass r.clipLeft r.clipRight poly with
    | nil => trivial
    | cons v t => exact yRunSafe_holds _ _ hTB v _

/-- Witness for `no_division_by_zero`: a triangle with degenerate and
boundary-crossing edges against the rectangle left=5, right=15, top=2,
bottom=12. -/
theorem no_division_by_zero_witness :
    TwoAxisSafe [⟨0, 0⟩, ⟨0, 0⟩, ⟨20, 0⟩, ⟨10, 15⟩] ⟨5, 15, 12, 2⟩ :=
  no_division_by_zero _ _ (by decide) (by decide)

/-- C4 (amended): for an edge between `A` and `B` that crosses exactly one X
clip bound — `B` lies within `[L, R]` and `A` beyond one bound — the
interpolated boundary vertex is direction-independent: traversing A→B and
traversing B→A emit the bit-for-bit identical boundary vertex (the same
`Int.tdiv` expression), so adjacent polygons sharing the edge get identical
boundary coordinates.  (For an edge crossing both bounds this fails, see the
counterexample.) -/
theorem boundary_vertex_direction_independent (L R : Int) (A B : vertex)
    (hBL : L ≤ B.x) (hBR : B.x ≤ R) :
    (R < A.x →
      xEdge L R A B = [⟨R, A.y + ((B.y - A.y) * (R - A.x)).tdiv (B.x - A.x)⟩] ∧
      xEdge L R B A = [B, ⟨R, A.y + ((B.y - A.y) * (R - A.x)).tdiv (B.x - A.x)⟩]) ∧
    (A.x < L →
      xEdge L R A B = [⟨L, A.y + ((B.y - A.y) * (L - A.x)).tdiv (B.x - A.x)⟩] ∧
      xEdge L R B A = [B, ⟨L, A.y + ((B.y - A.y) * (L - A.x)).tdiv (B.x - A.x)⟩]) := by
  constructor
  · intro hA
    constructor
    · simp only [xEdge, xNearR, xNearL, xFarL, xFarR]
      split_ifs <;> first | rfl | (exfalso; omega)
    · simp only [xEdge, xNearR, xNearL, xFarL, xFarR]
      split_ifs <;> first | rfl | (exfalso; omega)
  · intro hA
    constructor
    · simp only [xEdge, xNearR, xNearL, xFarL, xFarR]
      split_ifs <;> first | rfl | (exfalso; omega)
    · simp only [xEdge, xNearR, xNearL, xFarL, xFarR]
      split_ifs <;> first | rfl | (exfalso; omega)

/-- Witness for `boundary_vertex_direction_independent`: the edge between
(20,7) and (5,3) crossing right=10, clipped both ways. -/
theorem boundary_vertex_direction_independent_witness :
    xEdge 0 10 ⟨20, 7⟩ ⟨5, 3⟩ = [⟨10, 5⟩] ∧
    xEdge 0 10 ⟨5, 3⟩ ⟨20, 7⟩ = [⟨5, 3⟩, ⟨10, 5⟩] := by
  have h := (boundary_vertex_direction_independent 0 10 ⟨20, 7⟩ ⟨5, 3⟩
    (by decide) (by decide)).1 (by decide)
  constructor
  · rw [h.1]
    decide
  · rw [h.2]
    decide

/-- The instrumented loop and the plain loop agree: concatenating the
per-edge stores of the trace gives the pass's buffer contents. -/
theorem xRun_eq_trace_join (L R : Int) (s : vertex) (eps : List vertex) :
    xRun L R s eps = ((xRunTrace L R s eps).map Prod.snd).flatten := by
  induction eps generalizing s with
  | nil => rfl
  | cons p rest ih => simp [xRun, xRunTrace, ih p]

/-- C9 (amended): within a clip pass the starting point used for each edge
is always the previous edge's original unclipped endpoint — whether or not
the cheap rejection triggered, and whether or not the edge was clipped: the
starts recorded by the trace are exactly the initial vertex followed by
every endpoint but the last. -/
theorem advance_rule_always_unclipped (L R : Int) (s p : vertex)
    (rest : List vertex) :
    (xRunTrace L R s (p :: rest)).map Prod.fst = s :: (p :: rest).dropLast := by
  induction rest generalizing s p with
  | nil => rfl
  | cons q r ih => simpa [xRunTrace] using ih p q

/-- An X-pass edge with both endpoints inside `[L, R]` stores exactly its
start, unmodified. -/
theorem xEdge_inside (L R : Int) (s p : vertex) (h1 : L ≤ s.x) (h2 : s.x ≤ R)
    (h3 : L ≤ p.x) (h4 : p.x ≤ R) : xEdge L R s p = [s] := by
  simp only [xEdge, xNearR, xNearL]
  split_ifs <;> first | rfl | (exfalso; omega)

/-- A Y-pass edge with both endpoints inside `[T, B]` stores exactly its
start, unmodified. -/
theorem yEdge_inside (T B : Int) (s p : vertex) (h1 : T ≤ s.y) (h2 : s.y ≤ B)
    (h3 : T ≤ p.y) (h4 : p.y ≤ B) : yEdge T B s p = [s] := by
  simp only [yEdge, yNearB, yNearT]
  split_ifs <;> first | rfl | (exfalso; omega)

/-- An X-pass loop over endpoints that all lie inside `[L, R]`, from a start
inside `[L, R]`, emits the start followed by every endpoint but the last. -/
theorem xRun_inside (L R : Int) (s p : vertex) (rest : List vertex)
    (hs1 : L ≤ s.x) (hs2 : s.x ≤ R) (hp : L ≤ p.x ∧ p.x ≤ R)
    (hrest : ∀ q ∈ rest, L ≤ q.x ∧ q.x ≤ R) :
    xRun L R s (p :: rest) = s :: (p :: rest).dropLast := by
  induction rest generalizing s p with
  | nil => simp [xRun, xEdge_inside L R s p hs1 hs2 hp.1 hp.2]
  | cons q r ih =>
      have h1 := xEdge_inside L R s p hs1 hs2 hp.1 hp.2
      have h2 := ih p q hp.1 hp.2 (hrest q (by simp))
        (fun w hw => hrest w (by simp [hw]))
      show xEdge L R s p ++ xRun L R p (q :: r) = s :: (p :: q :: r).dropLast
      rw [h1, h2]
      simp

/-- A Y-pass loop over endpoints all inside `[T, B]` likewise copies. -/
theorem yRun_inside (T B : Int) (s p : vertex) (rest : List vertex)
    (hs1 : T ≤ s.y) (hs2 : s.y ≤ B) (hp : T ≤ p.y ∧ p.y ≤ B)
    (hrest : ∀ q ∈ rest, T ≤ q.y ∧ q.y ≤ B) :
    yRun T B s (p :: rest) = s :: (p :: rest).dropLast := by
  induction rest generalizing s p with
  | nil => simp [yRun, yEdge_inside T B s p hs1 hs2 hp.1 hp.2]
  | cons q r ih =>
      have h1 := yEdge_inside T B s p hs1 hs2 hp.1 hp.2
      have h2 := ih p q hp.1 hp.2 (hrest q (by simp))
        (fun w hw => hrest w (by simp [hw]))
      show yEdge T B s p ++ yRun T B p (q :: r) = s :: (p :: q :: r).dropLast
      rw [h1, h2]
      simp

/-- The X pass on a polygon lying inside `[L, R]` reverses its tail. -/
theorem xClipPass_inside (L R : Int) (v : vertex) (t : List vertex)
    (hall : ∀ q ∈ v :: t, L ≤ q.x ∧ q.x ≤ R) :
    xClipPass L R (v :: t) = v :: t.reverse := by
  have hrev : (v :: t).reverse = t.reverse ++ [v] := by simp
  have hv := hall v (by simp)
  rcases h : t.reverse ++ [v] with _ | ⟨p, rest⟩
  · exact absurd h (by simp)
  · have hmem : ∀ q ∈ p :: rest, L ≤ q.x ∧ q.x ≤ R := by
      rw [← h]
      intro q hq
      rcases List.mem_append.mp hq with hq1 | hq2
      · exact hall q (by simp [List.mem_reverse.mp hq1])
      · simp at hq2
        subst hq2
        exact hv
    show xRun L R v (v :: t).reverse = v :: t.reverse
    rw [hrev, h, xRun_inside L R v p rest hv.1 hv.2 (hmem p (by simp))
      (fun w hw => hmem w (by simp [hw]))]
    have : (p :: rest).dropLast = t.reverse := by
      rw [← h, List.dropLast_concat]
    rw [this]

/-- The Y pass on a list lying inside `[T, B]` reverses its tail. -/
theorem yClipPass_inside (T B : Int) (v : vertex) (t : List vertex)
    (hall : ∀ q ∈ v :: t, T ≤ q.y ∧ q.y ≤ B) :
    yClipPass T B (v :: t) = v :: t.reverse := by
  have hrev : (v :: t).reverse = t.reverse ++ [v] := by simp
  have hv := hall v (by simp)
  rcases h : t.reverse ++ [v] with _ | ⟨p, rest⟩
  · exact absurd h (by simp)
  · have hmem : ∀ q ∈ p :: rest, T ≤ q.y ∧ q.y ≤ B := by
      rw [← h]
      intro q hq
      rcases List.mem_append.mp hq with hq1 | hq2
      · exact hall q (by simp [List.mem_reverse.mp hq1])
      · simp at hq2
        subst hq2
        exact hv
    show yRun T B v (v :: t).reverse = v :: t.reverse
    rw [hrev, h, yRun_inside T B v p rest hv.1 hv.2 (hmem p (by simp))
      (fun w hw => hmem w (by simp [hw]))]
    have : (p :: rest).dropLast = t.reverse := by
      rw [← h, List.dropLast_concat]
    rw [this]

/-- A polygon of length ≥ 3 lying entirely inside the closed clip rectangle
is passed through: the routine returns its length and writes exactly its
vertices, in order, to `clippedPolygon` (each pass reverses the tail, and
the two reversals cancel). -/
theorem clip_inside_eq (poly : List vertex) (r : clipRect)
    (h3 : 3 ≤ poly.length)
    (hin : ∀ q ∈ poly, r.clipLeft ≤ q.x ∧ q.x ≤ r.clipRight ∧
      r.clipTop ≤ q.y ∧ q.y ≤ r.clipBottom) :
    (TwoAxisPolygonClip poly r).1 = poly.length ∧
      (TwoAxisPolygonClip poly r).2.2 = poly := by
  rcases poly with _ | ⟨v, t⟩
  · simp at h3
  · have hx : ∀ q ∈ v :: t, r.clipLeft ≤ q.x ∧ q.x ≤ r.clipRight :=
      fun q hq => ⟨(hin q hq).1, (hin q hq).2.1⟩
    have hy : ∀ q ∈ v :: t, r.clipTop ≤ q.y ∧ q.y ≤ r.clipBottom :=
      fun q hq => ⟨(hin q hq).2.2.1, (hin q hq).2.2.2⟩
    have hcb : xClipPass r.clipLeft r.clipRight (v :: t) = v :: t.reverse :=
      xClipPass_inside _ _ v t hx
    have hylist : ∀ q ∈ v :: t.reverse, r.clipTop ≤ q.y ∧ q.y ≤ r.clipBottom := by
      intro q hq
      rcases List.mem_cons.mp hq with h | h
      · exact hy q (by simp [h])
      · exact hy q (by simp [List.mem_reverse.mp h])
    have hout : yClipPass r.clipTop r.clipBottom (v :: t.reverse) =
        v :: t.reverse.reverse := yClipPass_inside _ _ v t.reverse hylist
    have hlen : ¬ ((v :: t.reverse).length < 3) := by
      simp only [List.length_cons, List.length_reverse]
      simp only [List.length_cons] at h3
      omega
    simp only [TwoAxisPolygonClip]
    rw [hcb, if_neg hlen, hout]
    simp

/-- C2: a polygon with at least 3 vertices lying entirely inside the clip
region is copied through unchanged: the routine returns `nVertices` and the
first `nVertices` entries of the output buffer are the source vertices in
the same order, none added or removed. -/
theorem fully_inside_polygon_unchanged (poly : List vertex) (r : clipRect)
    (h3 : 3 ≤ poly.length)
    (hin : ∀ q ∈ poly, r.clipLeft ≤ q.x ∧ q.x ≤ r.clipRight ∧
      r.clipTop ≤ q.y ∧ q.y ≤ r.clipBottom) :
    (TwoAxisPolygonClip poly r).1 = poly.length ∧
      (TwoAxisPolygonClip poly r).2.2 = poly :=
  clip_inside_eq poly r h3 hin

/-- Witness for `fully_inside_polygon_unchanged`: a triangle strictly inside
the rectangle left=0, right=10, top=0, bottom=10. -/
theorem fully_inside_polygon_unchanged_witness :
    (TwoAxisPolygonClip [⟨1, 1⟩, ⟨9, 1⟩, ⟨5, 8⟩] ⟨0, 10, 10, 0⟩).1 = 3 ∧
      (TwoAxisPolygonClip [⟨1, 1⟩, ⟨9, 1⟩, ⟨5, 8⟩] ⟨0, 10, 10, 0⟩).2.2 =
        [⟨1, 1⟩, ⟨9, 1⟩, ⟨5, 8⟩] := by
  have h := fully_inside_polygon_unchanged [⟨1, 1⟩, ⟨9, 1⟩, ⟨5, 8⟩]
    ⟨0, 10, 10, 0⟩ (by decide) (by decide)
  exact ⟨h.1.trans (by decide), h.2⟩

/-- The y-coordinate of the (possibly right-clipped) start lies between the
edge's endpoint y-coordinates. -/
theorem xNearR_y_between (R : Int) (s p : vertex) (hpR : p.x ≤ R) :
    min s.y p.y ≤ (xNearR R s p).y ∧ (xNearR R s p).y ≤ max s.y p.y := by
  unfold xNearR
  split_ifs with h
  · exact interp_between s.y p.y (R - s.x) (p.x - s.x)
      (Or.inr ⟨by omega, by omega, by omega⟩)
  · omega

/-- The y-coordinate of the (possibly left-clipped) start lies between the
edge's endpoint y-coordinates. -/
theorem xNearL_y_between (L : Int) (s p : vertex) (hpL : L ≤ p.x) :
    min s.y p.y ≤ (xNearL L s p).y ∧ (xNearL L s p).y ≤ max s.y p.y := by
  unfold xNearL
  split_ifs with h
  · exact interp_between s.y p.y (L - s.x) (p.x - s.x)
      (Or.inl ⟨by omega, by omega, by omega⟩)
  · omega

/-- The y-coordinate of the far vertex on `x = L` lies between the clipped
start's and the endpoint's y-coordinates. -/
theorem xFarL_y_between (L : Int) (s1 p : vertex) (hpL : p.x < L)
    (hs1 : L ≤ s1.x) :
    min s1.y p.y ≤ (xFarL L s1 p).y ∧ (xFarL L s1 p).y ≤ max s1.y p.y := by
  have := interp_between p.y s1.y (L - p.x) (s1.x - p.x)
    (Or.inl ⟨by omega, by omega, by omega⟩)
  unfold xFarL
  simp only
  omega

/-- The y-coordinate of the far vertex on `x = R` lies between the clipped
start's and the endpoint's y-coordinates. -/
theorem xFarR_y_between (R : Int) (s1 p : vertex) (hpR : R < p.x)
    (hs1 : s1.x ≤ R) :
    min s1.y p.y ≤ (xFarR R s1 p).y ∧ (xFarR R s1 p).y ≤ max s1.y p.y := by
  have := interp_between p.y s1.y (R - p.x) (s1.x - p.x)
    (Or.inr ⟨by omega, by omega, by omega⟩)
  unfold xFarR
  simp only
  omega

/-- Every vertex an X-pass edge stores has its y-coordinate between the y
coordinates of the edge's two endpoints. -/
theorem xEdge_y_between (L R : Int) (hLR : L ≤ R) (s p v : vertex)
    (hv : v ∈ xEdge L R s p) :
    min s.y p.y ≤ v.y ∧ v.y ≤ max s.y p.y := by
  unfold xEdge at hv
  split_ifs at hv with h1 h2 h3 h4 h5
  · simp at hv
  · push_neg at h2
    rcases List.mem_cons.mp hv with rfl | hv2
    · exact xNearR_y_between R s p h2.2
    · simp at hv2
      subst hv2
      have hs1x : L ≤ (xNearR R s p).x := by
        rw [xNearR_x]
        split_ifs <;> omega
      have hfar := xFarL_y_between L (xNearR R s p) p h3 hs1x
      have hnear := xNearR_y_between R s p h2.2
      omega
  · push_neg at h2
    simp at hv
    subst hv
    exact xNearR_y_between R s p h2.2
  · simp at hv
  · push_neg at h4
    rcases List.mem_cons.mp hv with rfl | hv2
    · exact xNearL_y_between L s p h4.1
    · simp at hv2
      subst hv2
      have hs1x : (xNearL L s p).x ≤ R := by
        rw [xNearL_x]
        split_ifs <;> omega
      have hfar := xFarR_y_between R (xNearL L s p) p h5 hs1x
      have hnear := xNearL_y_between L s p h4.1
      omega
  · push_neg at h4
    simp at hv
    subst hv
    exact xNearL_y_between L s p h4.1

/-- Every vertex an X-pass edge stores has its x-coordinate inside the
closed interval `[L, R]`. -/
theorem xEdge_x_range (L R : Int) (hLR : L ≤ R) (s p v : vertex)
    (hv : v ∈ xEdge L R s p) : L ≤ v.x ∧ v.x ≤ R := by
  unfold xEdge at hv
  split_ifs at hv with h1 h2 h3 h4 h5
  · simp at hv
  · push_neg at h2
    rcases List.mem_cons.mp hv with rfl | hv2
    · rw [xNearR_x]
      split_ifs <;> omega
    · simp at hv2
      subst hv2
      unfold xFarL
      simp only
      omega
  · push_neg at h2
    simp at hv
    subst hv
    rw [xNearR_x]
    split_ifs <;> omega
  · simp at hv
  · push_neg at h4
    rcases List.mem_cons.mp hv with rfl | hv2
    · rw [xNearL_x]
      split_ifs <;> omega
    · simp at hv2
      subst hv2
      unfold xFarR
      simp only
      omega
  · push_neg at h4
    simp at hv
    subst hv
    rw [xNearL_x]
    split_ifs <;> omega

/-- The x-coordinate of the (possibly bottom-clipped) start lies between the
edge's endpoint x-coordinates. -/
theorem yNearB_x_between (B : Int) (s p : vertex) (hpB : p.y ≤ B) :
    min s.x p.x ≤ (yNearB B s p).x ∧ (yNearB B s p).x ≤ max s.x p.x := by
  unfold yNearB
  split_ifs with h
  · exact interp_between s.x p.x (B - s.y) (p.y - s.y)
      (Or.inr ⟨by omega, by omega, by omega⟩)
  · omega

/-- The x-coordinate of the (possibly top-clipped) start lies between the
edge's endpoint x-coordinates. -/
theorem yNearT_x_between (T : Int) (s p : vertex) (hpT : T ≤ p.y) :
    min s.x p.x ≤ (yNearT T s p).x ∧ (yNearT T s p).x ≤ max s.x p.x := by
  unfold yNearT
  split_ifs with h
  · exact interp_between s.x p.x (T - s.y) (p.y - s.y)
      (Or.inl ⟨by omega, by omega, by omega⟩)
  · omega

/-- The x-coordinate of the far vertex on `y = T` lies between the clipped
start's and the endpoint's x-coordinates. -/
theorem yFarT_x_between (T : Int) (s1 p : vertex) (hpT : p.y < T)
    (hs1 : T ≤ s1.y) :
    min s1.x p.x ≤ (yFarT T s1 p).x ∧ (yFarT T s1 p).x ≤ max s1.x p.x := by
  have := interp_between p.x s1.x (T - p.y) (s1.y - p.y)
    (Or.inl ⟨by omega, by omega, by omega⟩)
  unfold yFarT
  simp only
  omega

/-- The x-coordinate of the far vertex on `y = B` lies between the clipped
start's and the endpoint's x-coordinates. -/
theorem yFarB_x_between (B : Int) (s1 p : vertex) (hpB : B < p.y)
    (hs1 : s1.y ≤ B) :
    min s1.x p.x ≤ (yFarB B s1 p).x ∧ (yFarB B s1 p).x ≤ max s1.x p.x := by
  have := interp_between p.x s1.x (B - p.y) (s1.y - p.y)
    (Or.inr ⟨by omega, by omega, by omega⟩)
  unfold yFarB
  simp only
  omega

/-- Every vertex a Y-pass edge stores has its x-coordinate between the x
coordinates of the edge's two endpoints. -/
theorem yEdge_x_between (T B : Int) (hTB : T ≤ B) (s p v : vertex)
    (hv : v ∈ yEdge T B s p) :
    min s.x p.x ≤ v.x ∧ v.x ≤ max s.x p.x := by
  unfold yEdge at hv
  split_ifs at hv with h1 h2 h3 h4 h5
  · simp at hv
  · push_neg at h2
    rcases List.mem_cons.mp hv with rfl | hv2
    · exact yNearB_x_between B s p h2.2
    · simp at hv2
      subst hv2
      have hs1y : T ≤ (yNearB B s p).y := by
        rw [yNearB_y]
        split_ifs <;> omega
      have hfar := yFarT_x_between T (yNearB B s p) p h3 hs1y
      have hnear := yNearB_x_between B s p h2.2
      omega
  · push_neg at h2
    simp at hv
    subst hv
    exact yNearB_x_between B s p h2.2
  · simp at hv
  · push_neg at h4
    rcases List.mem_cons.mp hv with rfl | hv2
    · exact yNearT_x_between T s p h4.1
    · simp at hv2
      subst hv2
      have hs1y : (yNearT T s p).y ≤ B := by
        rw [yNearT_y]
        split_ifs <;> omega
      have hfar := yFarB_x_between B (yNearT T s p) p h5 hs1y
      have hnear := yNearT_x_between T s p h4.1
      omega
  · push_neg at h4
    simp at hv
    subst hv
    exact yNearT_x_between T s p h4.1

/-- Every vertex a Y-pass edge stores has its y-coordinate inside the
closed interval `[T, B]`. -/
theorem yEdge_y_range (T B : Int) (hTB : T ≤ B) (s p v : vertex)
    (hv : v ∈ yEdge T B s p) : T ≤ v.y ∧ v.y ≤ B := by
  unfold yEdge at hv
  split_ifs at hv with h1 h2 h3 h4 h5
  · simp at hv
  · push_neg at h2
    rcases List.mem_cons.mp hv with rfl | hv2
    · rw [yNearB_y]
      split_ifs <;> omega
    · simp at hv2
      subst hv2
      unfold yFarT
      simp only
      omega
  · push_neg at h2
    simp at hv
    subst hv
    rw [yNearB_y]
    split_ifs <;> omega
  · simp at hv
  · push_neg at h4
    rcases List.mem_cons.mp hv with rfl | hv2
    · rw [yNearT_y]
      split_ifs <;> omega
    · simp at hv2
      subst hv2
      unfold yFarB
      simp only
      omega
  · push_neg at h4
    simp at hv
    subst hv
    rw [yNearT_y]
    split_ifs <;> omega

/-- Every vertex the X-pass loop stores has x inside `[L, R]`. -/
theorem xRun_x_range (L R : Int) (hLR : L ≤ R) (s : vertex)
    (eps : List vertex) (v : vertex) (hv : v ∈ xRun L R s eps) :
    L ≤ v.x ∧ v.x ≤ R := by
  induction eps generalizing s with
  | nil => simp [xRun] at hv
  | cons p rest ih =>
      rcases List.mem_append.mp hv with h | h
      · exact xEdge_x_range L R hLR s p v h
      · exact ih p h

/-- Every vertex the X pass writes to `clipBuffer` has x inside `[L, R]`. -/
theorem xClipPass_x_range (L R : Int) (hLR : L ≤ R) (poly : List vertex)
    (v : vertex) (hv : v ∈ xClipPass L R poly) : L ≤ v.x ∧ v.x ≤ R := by
  rcases poly with _ | ⟨w, t⟩
  · simp [xClipPass] at hv
  · exact xRun_x_range L R hLR w _ v hv

/-- Every vertex the Y-pass loop stores has y inside `[T, B]`. -/
theorem yRun_y_range (T B : Int) (hTB : T ≤ B) (s : vertex)
    (eps : List vertex) (v : vertex) (hv : v ∈ yRun T B s eps) :
    T ≤ v.y ∧ v.y ≤ B := by
  induction eps generalizing s with
  | nil => simp [yRun] at hv
  | cons p rest ih =>
      rcases List.mem_append.mp hv with h | h
      · exact yEdge_y_range T B hTB s p v h
      · exact ih p h

/-- Every vertex the Y pass writes to `clippedPolygon` has y inside `[T, B]`. -/
theorem yClipPass_y_range (T B : Int) (hTB : T ≤ B) (w : List vertex)
    (v : vertex) (hv : v ∈ yClipPass T B w) : T ≤ v.y ∧ v.y ≤ B := by
  rcases w with _ | ⟨u, t⟩
  · simp [yClipPass] at hv
  · exact yRun_y_range T B hTB u _ v hv

/-- The Y-pass loop preserves any x-interval containing its start and all
its endpoints. -/
theorem yRun_x_preserved (T B lo hi : Int) (hTB : T ≤ B) (s : vertex)
    (eps : List vertex) (hs : lo ≤ s.x ∧ s.x ≤ hi)
    (heps : ∀ q ∈ eps, lo ≤ q.x ∧ q.x ≤ hi) (v : vertex)
    (hv : v ∈ yRun T B s eps) : lo ≤ v.x ∧ v.x ≤ hi := by
  induction eps generalizing s with
  | nil => simp [yRun] at hv
  | cons p rest ih =>
      have hp := heps p (by simp)
      rcases List.mem_append.mp hv with h | h
      · have := yEdge_x_between T B hTB s p v h
        omega
      · exact ih p hp (fun q hq => heps q (by simp [hq])) h

/-- The Y pass preserves any x-interval containing its whole input. -/
theorem yClipPass_x_preserved (T B lo hi : Int) (hTB : T ≤ B)
    (w : List vertex) (hall : ∀ q ∈ w, lo ≤ q.x ∧ q.x ≤ hi) (v : vertex)
    (hv : v ∈ yClipPass T B w) : lo ≤ v.x ∧ v.x ≤ hi := by
  rcases w with _ | ⟨u, t⟩
  · simp [yClipPass] at hv
  · exact yRun_x_preserved T B lo hi hTB u _ (hall u (by simp))
      (fun q hq => hall q (List.mem_reverse.mp hq)) v hv

/-- An X-pass edge entirely left of the left bound stores nothing. -/
theorem xEdge_all_left (L R : Int) (s p : vertex) (hs : s.x < L)
    (hp : p.x < L) : xEdge L R s p = [] := by
  simp only [xEdge]
  split_ifs <;> first | rfl | (exfalso; omega)

/-- An X-pass edge entirely right of the right bound stores nothing. -/
theorem xEdge_all_right (L R : Int) (s p : vertex) (hs : R < s.x)
    (hp : R < p.x) : xEdge L R s p = [] := by
  simp only [xEdge]
  split_ifs <;> first | rfl | (exfalso; omega)

/-- A Y-pass edge entirely above the top bound stores nothing. -/
theorem yEdge_all_top (T B : Int) (s p : vertex) (hs : s.y < T)
    (hp : p.y < T) : yEdge T B s p = [] := by
  simp only [yEdge]
  split_ifs <;> first | rfl | (exfalso; omega)

/-- A Y-pass edge entirely below the bottom bound stores nothing. -/
theorem yEdge_all_bottom (T B : Int) (s p : vertex) (hs : B < s.y)
    (hp : B < p.y) : yEdge T B s p = [] := by
  simp only [yEdge]
  split_ifs <;> first | rfl | (exfalso; omega)

/-- The X-pass loop on vertices all left of the left bound stores nothing. -/
theorem xRun_all_left (L R : Int) (s : vertex) (eps : List vertex)
    (hs : s.x < L) (heps : ∀ q ∈ eps, q.x < L) : xRun L R s eps = [] := by
  induction eps generalizing s with
  | nil => rfl
  | cons p rest ih =>
      have hp := heps p (by simp)
      simp [xRun, xEdge_all_left L R s p hs hp,
        ih p hp (fun q hq => heps q (by simp [hq]))]

/-- The X-pass loop on vertices all right of the right bound stores nothing. -/
theorem xRun_all_right (L R : Int) (s : vertex) (eps : List vertex)
    (hs : R < s.x) (heps : ∀ q ∈ eps, R < q.x) : xRun L R s eps = [] := by
  induction eps generalizing s with
  | nil => rfl
  | cons p rest ih =>
      have hp := heps p (by simp)
      simp [xRun, xEdge_all_right L R s p hs hp,
        ih p hp (fun q hq => heps q (by simp [hq]))]

/-- The Y-pass loop on vertices all above the top bound stores nothing. -/
theorem yRun_all_top (T B : Int) (s : vertex) (eps : List vertex)
    (hs : s.y < T) (heps : ∀ q ∈ eps, q.y < T) : yRun T B s eps = [] := by
  induction eps generalizing s with
  | nil => rfl
  | cons p rest ih =>
      have hp := heps p (by simp)
      simp [yRun, yEdge_all_top T B s p hs hp,
        ih p hp (fun q hq => heps q (by simp [hq]))]

/-- The Y-pass loop on vertices all below the bottom bound stores nothing. -/
theorem yRun_all_bottom (T B : Int) (s : vertex) (eps : List vertex)
    (hs : B < s.y) (heps : ∀ q ∈ eps, B < q.y) : yRun T B s eps = [] := by
  induction eps generalizing s with
  | nil => rfl
  | cons p rest ih =>
      have hp := heps p (by simp)
      simp [yRun, yEdge_all_bottom T B s p hs hp,
        ih p hp (fun q hq => heps q (by simp [hq]))]

/-- Every vertex the X pass stores has its y between the least and greatest
source y-values below a strict upper bound: here specialised to a strict
upper bound `c` on all source y-coordinates. -/
theorem xRun_y_lt (L R c : Int) (hLR : L ≤ R) (s : vertex)
    (eps : List vertex) (hs : s.y < c) (heps : ∀ q ∈ eps, q.y < c)
    (v : vertex) (hv : v ∈ xRun L R s eps) : v.y < c := by
  induction eps generalizing s with
  | nil => simp [xRun] at hv
  | cons p rest ih =>
      have hp := heps p (by simp)
      rcases List.mem_append.mp hv with h | h
      · have := xEdge_y_between L R hLR s p v h
        omega
      · exact ih p hp (fun q hq => heps q (by simp [hq])) h

/-- Strict lower-bound counterpart of `xRun_y_lt`. -/
theorem xRun_y_gt (L R c : Int) (hLR : L ≤ R) (s : vertex)
    (eps : List vertex) (hs : c < s.y) (heps : ∀ q ∈ eps, c < q.y)
    (v : vertex) (hv : v ∈ xRun L R s eps) : c < v.y := by
  induction eps generalizing s with
  | nil => simp [xRun] at hv
  | cons p rest ih =>
      have hp := heps p (by simp)
      rcases List.mem_append.mp hv with h | h
      · have := xEdge_y_between L R hLR s p v h
        omega
      · exact ih p hp (fun q hq => heps q (by simp [hq])) h

/-- C3: a polygon lying strictly beyond any single clip bound (all x left of
`left`, all x right of `right`, all y above `top`, or all y below `bottom`)
is clipped to fewer than 3 vertices. -/
theorem fully_outside_invisible (poly : List vertex) (r : clipRect)
    (hLR : r.clipLeft ≤ r.clipRight)
    (hout : (∀ q ∈ poly, q.x < r.clipLeft) ∨ (∀ q ∈ poly, r.clipRight < q.x) ∨
      (∀ q ∈ poly, q.y < r.clipTop) ∨ (∀ q ∈ poly, r.clipBottom < q.y)) :
    (TwoAxisPolygonClip poly r).1 < 3 := by
  rcases poly with _ | ⟨v, t⟩
  · simp [TwoAxisPolygonClip, xClipPass]
  rcases hout with h | h | h | h
  · have hcb : xClipPass r.clipLeft r.clipRight (v :: t) = [] :=
      xRun_all_left _ _ v _ (h v (by simp))
        (fun q hq => h q (List.mem_reverse.mp hq))
    simp [TwoAxisPolygonClip, hcb]
  · have hcb : xClipPass r.clipLeft r.clipRight (v :: t) = [] :=
      xRun_all_right _ _ v _ (h v (by simp))
        (fun q hq => h q (List.mem_reverse.mp hq))
    simp [TwoAxisPolygonClip, hcb]
  · simp only [TwoAxisPolygonClip]
    by_cases hlen : (xClipPass r.clipLeft r.clipRight (v :: t)).length < 3
    · rw [if_pos hlen]
      exact hlen
    · rw [if_neg hlen]
      have hcby : ∀ w ∈ xClipPass r.clipLeft r.clipRight (v :: t),
          w.y < r.clipTop := by
        intro w hw
        exact xRun_y_lt _ _ _ hLR v _ (h v (by simp))
          (fun q hq => h q (List.mem_reverse.mp hq)) w hw
      rcases hcb : xClipPass r.clipLeft r.clipRight (v :: t) with _ | ⟨w, u⟩
      · simp [hcb, yClipPass]
      · have hmem : ∀ q ∈ w :: u, q.y < r.clipTop := by
          rw [← hcb]
          exact hcby
        have hnil : yRun r.clipTop r.clipBottom w (w :: u).reverse = [] :=
          yRun_all_top _ _ w _ (hmem w (by simp))
            (fun q hq => hmem q (List.mem_reverse.mp hq))
        show (yRun r.clipTop r.clipBottom w (w :: u).reverse).length < 3
        rw [hnil]
        simp
  · simp only [TwoAxisPolygonClip]
    by_cases hlen : (xClipPass r.clipLeft r.clipRight (v :: t)).length < 3
    · rw [if_pos hlen]
      exact hlen
    · rw [if_neg hlen]
      have hcby : ∀ w ∈ xClipPass r.clipLeft r.clipRight (v :: t),
          r.clipBottom < w.y := by
        intro w hw
        exact xRun_y_gt _ _ _ hLR v _ (h v (by simp))
          (fun q hq => h q (List.mem_reverse.mp hq)) w hw
      rcases hcb : xClipPass r.clipLeft r.clipRight (v :: t) with _ | ⟨w, u⟩
      · simp [hcb, yClipPass]
      · have hmem : ∀ q ∈ w :: u, r.clipBottom < q.y := by
          rw [← hcb]
          exact hcby
        have hnil : yRun r.clipTop r.clipBottom w (w :: u).reverse = [] :=
          yRun_all_bottom _ _ w _ (hmem w (by simp))
            (fun q hq => hmem q (List.mem_reverse.mp hq))
        show (yRun r.clipTop r.clipBottom w (w :: u).reverse).length < 3
        rw [hnil]
        simp
  
/-- Witness for `fully_outside_invisible`: a triangle entirely to the left
of a region with left=100 — the returned count is below 3, and evaluating
shows it is exactly 0. -/
theorem fully_outside_invisible_witness :
    (TwoAxisPolygonClip [⟨0, 0⟩, ⟨50, 0⟩, ⟨25, 40⟩] ⟨100, 200, 100, 0⟩).1 < 3 ∧
    (TwoAxisPolygonClip [⟨0, 0⟩, ⟨50, 0⟩, ⟨25, 40⟩] ⟨100, 200, 100, 0⟩).1 = 0 := by
  constructor
  · exact fully_outside_invisible _ _ (by decide) (Or.inl (by decide))
  · decide

/-- C7: when the X pass yields fewer than 3 vertices the routine returns
that count at once: the Y pass never runs, no store to `clippedPolygon` is
performed, and any pre-existing contents of that buffer are untouched. -/
theorem early_return_output_untouched (poly : List vertex) (r : clipRect)
    (init : Nat → vertex)
    (h : (xClipPass r.clipLeft r.clipRight poly).length < 3) :
    (TwoAxisPolygonClip poly r).1 =
        (xClipPass r.clipLeft r.clipRight poly).length ∧
      (TwoAxisPolygonClip poly r).2.2 = [] ∧
      (∀ i, overwrite init (TwoAxisPolygonClip poly r).2.2 i = init i) := by
  simp only [TwoAxisPolygonClip]
  rw [if_pos h]
  exact ⟨rfl, rfl, fun i => by simp [overwrite]⟩

/-- Witness for `early_return_output_untouched`: a triangle whose X pass
rejects everything; cell 5 of the output buffer keeps its old value. -/
theorem early_return_output_untouched_witness :
    (TwoAxisPolygonClip [⟨-5, 0⟩, ⟨-6, 1⟩, ⟨-7, 0⟩] ⟨0, 10, 10, 0⟩).1 = 0 ∧
    overwrite initBuf
      (TwoAxisPolygonClip [⟨-5, 0⟩, ⟨-6, 1⟩, ⟨-7, 0⟩] ⟨0, 10, 10, 0⟩).2.2 5 =
      initBuf 5 := by
  have h := early_return_output_untouched [⟨-5, 0⟩, ⟨-6, 1⟩, ⟨-7, 0⟩]
    ⟨0, 10, 10, 0⟩ initBuf (by decide)
  exact ⟨h.1.trans (by decide), h.2.2 5⟩

/-- C8: re-clipping is the identity on a visible result.  If clipping a
polygon against a rectangle satisfying the documented bound invariants
returns `m ≥ 3` vertices, clipping that output against the same rectangle
returns `m` again and writes exactly the same vertices in the same order. -/
theorem reclip_identical (poly : List vertex) (r : clipRect)
    (hLR : r.clipLeft ≤ r.clipRight) (hTB : r.clipTop ≤ r.clipBottom)
    (h3 : 3 ≤ (TwoAxisPolygonClip poly r).1) :
    (TwoAxisPolygonClip (TwoAxisPolygonClip poly r).2.2 r).1 =
      (TwoAxisPolygonClip poly r).1 ∧
    (TwoAxisPolygonClip (TwoAxisPolygonClip poly r).2.2 r).2.2 =
      (TwoAxisPolygonClip poly r).2.2 := by
  by_cases hlen : (xClipPass r.clipLeft r.clipRight poly).length < 3
  · exfalso
    have hc : (TwoAxisPolygonClip poly r).1 =
        (xClipPass r.clipLeft r.clipRight poly).length := by
      simp only [TwoAxisPolygonClip]
      rw [if_pos hlen]
    omega
  · have hres : TwoAxisPolygonClip poly r =
        ((yClipPass r.clipTop r.clipBottom
            (xClipPass r.clipLeft r.clipRight poly)).length,
          xClipPass r.clipLeft r.clipRight poly,
          yClipPass r.clipTop r.clipBottom
            (xClipPass r.clipLeft r.clipRight poly)) := by
      simp only [TwoAxisPolygonClip]
      rw [if_neg hlen]
    have hx : ∀ q ∈ yClipPass r.clipTop r.clipBottom
        (xClipPass r.clipLeft r.clipRight poly),
        r.clipLeft ≤ q.x ∧ q.x ≤ r.clipRight :=
      fun q hq => yClipPass_x_preserved _ _ _ _ hTB _
        (fun w hw => xClipPass_x_range _ _ hLR poly w hw) q hq
    have hy : ∀ q ∈ yClipPass r.clipTop r.clipBottom
        (xClipPass r.clipLeft r.clipRight poly),
        r.clipTop ≤ q.y ∧ q.y ≤ r.clipBottom :=
      fun q hq => yClipPass_y_range _ _ hTB _ q hq
    have h3' : 3 ≤ (yClipPass r.clipTop r.clipBottom
        (xClipPass r.clipLeft r.clipRight poly)).length := by
      rw [hres] at h3
      exact h3
    have hmain := clip_inside_eq
      (yClipPass r.clipTop r.clipBottom (xClipPass r.clipLeft r.clipRight poly))
      r h3'
      (fun q hq => ⟨(hx q hq).1, (hx q hq).2, (hy q hq).1, (hy q hq).2⟩)
    rw [hres]
    simpa using hmain

/-- Witness for `reclip_identical`: a square overlapping the rectangle
left=0, right=10, top=0, bottom=10; its 4-vertex clip result re-clips to
itself. -/
theorem reclip_identical_witness :
    (TwoAxisPolygonClip
        (TwoAxisPolygonClip [⟨-5, -5⟩, ⟨15, -5⟩, ⟨15, 15⟩, ⟨-5, 15⟩]
          ⟨0, 10, 10, 0⟩).2.2 ⟨0, 10, 10, 0⟩).1 =
      (TwoAxisPolygonClip [⟨-5, -5⟩, ⟨15, -5⟩, ⟨15, 15⟩, ⟨-5, 15⟩]
        ⟨0, 10, 10, 0⟩).1 ∧
    (TwoAxisPolygonClip
        (TwoAxisPolygonClip [⟨-5, -5⟩, ⟨15, -5⟩, ⟨15, 15⟩, ⟨-5, 15⟩]
          ⟨0, 10, 10, 0⟩).2.2 ⟨0, 10, 10, 0⟩).2.2 =
      (TwoAxisPolygonClip [⟨-5, -5⟩, ⟨15, -5⟩, ⟨15, 15⟩, ⟨-5, 15⟩]
        ⟨0, 10, 10, 0⟩).2.2 :=
  reclip_identical [⟨-5, -5⟩, ⟨15, -5⟩, ⟨15, 15⟩, ⟨-5, 15⟩] ⟨0, 10, 10, 0⟩
    (by decide) (by decide) (by decide)
